import Mathlib

/-!
Verification of `scripts/09_extract_repo_features_and_commits.py`, the
incremental snapshot ingestion engine: its derivation step
(`first_commits_by_author`, `infer_commit_type`), its paginated fetchers
(`fetch_commits`, `fetch_maintainers`, `fetch_repo_general_info`, content
probes), its async poller (`fetch_weekly_commit_activity`), its orchestrator
(`get_missing` / `process_repo`) and its batch driver (`process_csv`).

The Python code is embedded shallowly.  JSON string fields that the code reads
with `dict.get` are modelled three-valued (`PyVal`: key absent, key present
with `null`, key present with a string), because `get`'s default fires only on
an absent key and Python truthiness distinguishes `None`/`""` from non-empty
strings.  Network fetches are parameterized by oracles (functions from page
number / path to a response), unbounded `while True` pagination loops take a
fuel argument, and filesystem state is a function from catalog file names to a
file status.
-/

namespace RepoSnap

/-- A JSON string-ish field as `dict.get` sees it: the key may be absent,
present holding `null`, or present holding a string. -/
inductive PyVal where
  | absent
  | null
  | str (s : String)
deriving DecidableEq, Repr, Inhabited

/-- `d.get(k, default)` for a string field, with the Python value `None`
encoded as `none` and a string `s` as `some s`. -/
def PyVal.getD (v : PyVal) (d : Option String) : Option String :=
  match v with
  | .absent => d
  | .null => none
  | .str s => some s

/-- `d.get(k)` (no default) for a string field. -/
def PyVal.get (v : PyVal) : Option String :=
  v.getD none

/-- Python truthiness of a `None`-or-string value: `None` and `""` are falsy. -/
def pyTruthy (v : Option String) : Bool :=
  match v with
  | none => false
  | some s => !s.isEmpty

/-- An integer-ish field as `dict.get` sees it. -/
inductive PyIntV where
  | absent
  | null
  | int (n : Int)
deriving DecidableEq, Repr

/-- `d.get(k, default)` for an integer field (`none` encodes Python `None`). -/
def PyIntV.getD (v : PyIntV) (d : Option Int) : Option Int :=
  match v with
  | .absent => d
  | .null => none
  | .int n => some n

/-! ### Python string primitives (substring / endswith / startswith on code points) -/

/-- `pat` is an initial segment of `l` (`str.startswith` on code points). -/
def listStarts : List Char → List Char → Bool
  | _, [] => true
  | [], _ :: _ => false
  | a :: as, b :: bs => a == b && listStarts as bs

/-- `pat in l` — contiguous-subsequence test (Python `in` on strings). -/
def listContainsSeg : List Char → List Char → Bool
  | l, pat =>
    listStarts l pat ||
      match l with
      | [] => false
      | _ :: as => listContainsSeg as pat

/-- Python `pat in s`. -/
def strContains (s pat : String) : Bool :=
  listContainsSeg s.data pat.data

/-- Python `s.startswith(pat)`. -/
def strStarts (s pat : String) : Bool :=
  listStarts s.data pat.data

/-- Python `s.endswith(pat)`. -/
def strEnds (s pat : String) : Bool :=
  listStarts s.data.reverse pat.data.reverse

/-- Python `s.endswith((p1, p2, ...))`. -/
def strEndsAny (s : String) (pats : List String) : Bool :=
  pats.any (strEnds s)

/-- Python `s.lower()` (ASCII case fold, all the code's keywords are ASCII). -/
def strLower (s : String) : String :=
  ⟨s.data.map Char.toLower⟩

/-- Lexicographic `≤` on code points, Python's string ordering as used by
`sorted(..., key=...)`. -/
def lexLe : List Char → List Char → Bool
  | [], _ => true
  | _ :: _, [] => false
  | a :: as, b :: bs =>
    if a.toNat < b.toNat then true
    else if b.toNat < a.toNat then false
    else lexLe as bs

/-- String `≤` via `lexLe`. -/
def strLe (a b : String) : Bool :=
  lexLe a.data b.data

/-! ### Commit records and `infer_commit_type` -/

/-- An element of a commit's `files_changed` list.  The code branches on
`isinstance(f, dict)`: a dict entry carries `filename` (read with default
`""`) and `additions`/`deletions` (read with default `0`, modelled with the
default already resolved to an `Int`); any other entry is used only through
`str(f)`. -/
inductive ChangedFile where
  | fdict (filename : String) (additions deletions : Int)
  | other (s : String)
deriving DecidableEq, Repr

/-- `f.get("filename", "").lower()` for a dict entry, `str(f).lower()`
otherwise. -/
def ChangedFile.lowerName (f : ChangedFile) : String :=
  match f with
  | .fdict fn _ _ => strLower fn
  | .other s => strLower s

/-- The `stats` sub-dict of a stored commit record (fields read with
`stats.get("additions", d)` / `stats.get("deletions", d)`). -/
structure StatsRec where
  additions : PyIntV := .absent
  deletions : PyIntV := .absent
  total : PyIntV := .absent
deriving DecidableEq, Repr

/-- A stored commit record, the element shape of `commits.json`'s `data`
(produced by `fetch_commits` and consumed by the derivation step).  `stats`
is `none` when the `stats` field is absent-or-not-a-dict; the code's
`first.get("stats", {})` then keeps the file-summed totals. -/
structure CommitRec where
  sha : PyVal := .absent
  author : PyVal := .absent
  author_login : PyVal := .absent
  date : PyVal := .absent
  message : PyVal := .absent
  files_changed : List ChangedFile := []
  stats : Option StatsRec := none
deriving DecidableEq, Repr, Inhabited

/-- Message keywords checked first, for `ci`. -/
def ciMsgKws : List String :=
  ["ci:", "github actions", "workflow", ".github", "pytest", "coverage"]

/-- Message keywords for `docs`. -/
def docsMsgKws : List String :=
  ["doc:", "docs:", "readme", "documentation", "comment"]

/-- Message keywords for `test`. -/
def testMsgKws : List String :=
  ["test:", "tests:", "test_", "unittest", "pytest"]

/-- Message keywords for `config`. -/
def configMsgKws : List String :=
  ["config:", "configure", "setup.py", "setup.cfg", "pyproject.toml", "requirements"]

/-- The per-file classification of the file-inspection fallback: the four
`filename` checks of `infer_commit_type`, in source order. -/
def fileLabel (f : ChangedFile) : Option String :=
  let filename := f.lowerName
  if strEndsAny filename [".md", ".rst", ".txt", ".doc"] then some "docs"
  else if strEndsAny filename [".test.py", "_test.py", "test_", "/tests/"] then some "test"
  else if strEndsAny filename [".yml", ".yaml", ".cfg", ".conf", ".ini", ".toml", ".json", ".xml"]
    then some "config"
  else if strStarts filename ".github/" || strStarts filename "docker" then some "ci"
  else none

/-- `any(kw in msg_lower for kw in kws)` over the lower-cased message. -/
def msgHas (kws : List String) (m : String) : Bool :=
  kws.any (fun kw => strContains (strLower m) kw)

/-- `infer_commit_type(message, files)`.  The message argument is `Option`
because the call site passes `first.get("message", "")`, which can be `None`;
the function body replaces a falsy message by `""`. -/
def infer_commit_type (message : Option String) (files : List ChangedFile) : String :=
  if msgHas ciMsgKws (message.getD "") then "ci"
  else if msgHas docsMsgKws (message.getD "") then "docs"
  else if msgHas testMsgKws (message.getD "") then "test"
  else if msgHas configMsgKws (message.getD "") then "config"
  else
    match files.findSome? fileLabel with
    | some t => t
    | none => "code"

/-! ### `first_commits_by_author` derivation -/

/-- The grouping key of the derivation:
`author = c.get("author_login") or c.get("author", "unknown")` followed by the
`if author:` guard.  `none` means the commit is dropped (the guard fails). -/
def groupKey (c : CommitRec) : Option String :=
  let login := c.author_login.get
  let a := if pyTruthy login then login else c.author.getD (some "unknown")
  if pyTruthy a then a else none

/-- Append `c` to the group keyed `k`, creating the group at the end when the
key is new (a `defaultdict` keeps keys in first-insertion order). -/
def groupInsert (k : String) (c : CommitRec) :
    List (String × List CommitRec) → List (String × List CommitRec)
  | [] => [(k, [c])]
  | (k', l) :: rest =>
    if k' = k then (k', l ++ [c]) :: rest else (k', l) :: groupInsert k c rest

/-- `commits_by_author`: fold the commit list through the grouping key,
dropping commits whose key is falsy. -/
def groupByAuthor (cs : List CommitRec) : List (String × List CommitRec) :=
  cs.foldl
    (fun acc c =>
      match groupKey c with
      | none => acc
      | some k => groupInsert k c acc)
    []

/-- The sort key `x.get("date", "")`; `none` encodes the Python value `None`,
which cannot be compared to a string. -/
def dateKey (c : CommitRec) : Option String :=
  c.date.getD (some "")

/-- The string actually compared for a commit whose date key is a string. -/
def dateStr (c : CommitRec) : String :=
  (dateKey c).getD ""

/-- Stable insertion keeping elements with `≤` keys in front, so that equal
dates preserve fetch order (Python's sort is stable). -/
def insByDate (c : CommitRec) : List CommitRec → List CommitRec
  | [] => [c]
  | d :: ds =>
    if strLe (dateStr d) (dateStr c) then d :: insByDate c ds
    else c :: d :: ds

/-- Stable sort by date key. -/
def sortByDate (l : List CommitRec) : List CommitRec :=
  l.foldl (fun acc c => insByDate c acc) []

/-- `sorted(commits_list, key=lambda x: x.get("date", ""))` wrapped in
`try/except`: comparing `None` to a string raises `TypeError`, which the
bare `except` turns into the original fetch order.  With at most one element
no comparison runs, so a lone `None` key does not raise. -/
def pySortedByDate (l : List CommitRec) : List CommitRec :=
  if 2 ≤ l.length && l.any (fun c => (dateKey c).isNone) then l
  else sortByDate l

/-- One output record of `first_commits_by_author.json`. -/
structure FirstCommitOut where
  author : String
  date : Option String
  sha : Option String
  message : Option String
  files_changed : Nat
  additions : Option Int
  deletions : Option Int
  commit_type : String
deriving DecidableEq, Repr

/-- Build the output record for one author group from its earliest commit
(`first`): file totals are summed over dict entries of `files_changed`, then
overridden by `stats.get(...)` when `stats` is a dict. -/
def mkFirstCommit (author : String) (first : CommitRec) : FirstCommitOut :=
  let files := first.files_changed
  let filesCount := if files.isEmpty then 0 else files.length
  let sumAdd : Int := files.foldl
    (fun acc f => match f with | .fdict _ a _ => acc + a | .other _ => acc) 0
  let sumDel : Int := files.foldl
    (fun acc f => match f with | .fdict _ _ d => acc + d | .other _ => acc) 0
  let totals : Option Int × Option Int :=
    match first.stats with
    | some st => (st.additions.getD (some sumAdd), st.deletions.getD (some sumDel))
    | none => (some sumAdd, some sumDel)
  { author := author
    date := first.date.get
    sha := first.sha.get
    message := first.message.get
    files_changed := filesCount
    additions := totals.1
    deletions := totals.2
    commit_type := infer_commit_type (first.message.getD (some "")) files }

/-- The derivation `first_commits_by_author`: group by author key, sort each
group by date (falling back to fetch order on a `TypeError`), and emit one
record per non-empty group from its first element. -/
def first_commits_by_author (cs : List CommitRec) : List FirstCommitOut :=
  (groupByAuthor cs).flatMap
    (fun p =>
      match pySortedByDate p.2 with
      | [] => []
      | first :: _ => [mkFirstCommit p.1 first])

/-! ### Observables used to state the derivation's correctness -/

/-- First-occurrence deduplication: the key order a `defaultdict` iterates. -/
def dedupFirst (l : List String) : List String :=
  l.foldl (fun acc k => if k ∈ acc then acc else acc ++ [k]) []

/-- The commits of `cs` that land in the group keyed `a`, in fetch order. -/
def groupOf (cs : List CommitRec) (a : String) : List CommitRec :=
  cs.filter (fun c => groupKey c == some a)

/-- The commit chosen as the group's first (head of the sorted group). -/
def firstOfGroup (cs : List CommitRec) (a : String) : CommitRec :=
  (pySortedByDate (groupOf cs a)).headI

/-- Modelled from the spec: the author identity the specification describes —
the login when present, otherwise the display name, otherwise the literal
`"unknown"` — written for comparison against the code's `groupKey`. -/
def specIdentity (c : CommitRec) : String :=
  match c.author_login with
  | .str s => s
  | _ =>
    match c.author with
    | .str s => s
    | _ => "unknown"

/-! ### Lemmas: the lexicographic order -/

theorem lexLe_refl (l : List Char) : lexLe l l = true := by
  induction l with
  | nil => rfl
  | cons a as ih => simp [lexLe, ih]

theorem lexLe_total (l₁ l₂ : List Char) : lexLe l₁ l₂ = true ∨ lexLe l₂ l₁ = true := by
  induction l₁ generalizing l₂ with
  | nil => left; rfl
  | cons a as ih =>
    cases l₂ with
    | nil => right; rfl
    | cons b bs =>
      rcases Nat.lt_trichotomy a.toNat b.toNat with h | h | h
      · left; simp [lexLe, h]
      · rcases ih bs with h2 | h2
        · left; simp [lexLe, h, h2]
        · right; simp [lexLe, h.symm, h2]
      · right; simp [lexLe, h]

theorem lexLe_trans {l₁ l₂ l₃ : List Char} (h₁ : lexLe l₁ l₂ = true)
    (h₂ : lexLe l₂ l₃ = true) : lexLe l₁ l₃ = true := by
  induction l₁ generalizing l₂ l₃ with
  | nil => rfl
  | cons a as ih =>
    cases l₂ with
    | nil => simp [lexLe] at h₁
    | cons b bs =>
      cases l₃ with
      | nil => simp [lexLe] at h₂
      | cons c cs =>
        rcases Nat.lt_trichotomy a.toNat b.toNat with hab | hab | hab
        · rcases Nat.lt_trichotomy b.toNat c.toNat with hbc | hbc | hbc
          · simp [lexLe, Nat.lt_trans hab hbc]
          · simp [lexLe, hbc ▸ hab]
          · simp [lexLe, hbc, Nat.lt_asymm hbc] at h₂
        · simp only [lexLe, hab, lt_self_iff_false, if_false] at h₁
          rcases Nat.lt_trichotomy b.toNat c.toNat with hbc | hbc | hbc
          · simp [lexLe, hab ▸ hbc]
          · simp only [lexLe, hbc, lt_self_iff_false, if_false] at h₂
            simpa [lexLe, hab.trans hbc, lt_self_iff_false] using ih h₁ h₂
          · simp [lexLe, hbc, Nat.lt_asymm hbc] at h₂
        · simp [lexLe, hab, Nat.lt_asymm hab] at h₁

theorem strLe_refl (s : String) : strLe s s = true :=
  lexLe_refl s.data

theorem strLe_total (s t : String) : strLe s t = true ∨ strLe t s = true :=
  lexLe_total s.data t.data

theorem strLe_trans {s t u : String} (h₁ : strLe s t = true) (h₂ : strLe t u = true) :
    strLe s u = true :=
  lexLe_trans h₁ h₂

/-! ### Lemmas: the stable date sort -/

/-- The order the derivation sorts each group by. -/
def dateLe (a b : CommitRec) : Prop :=
  strLe (dateStr a) (dateStr b) = true

theorem mem_insByDate {x c : CommitRec} {l : List CommitRec} :
    x ∈ insByDate c l ↔ x = c ∨ x ∈ l := by
  induction l with
  | nil => simp [insByDate]
  | cons d ds ih =>
    simp only [insByDate]
    split
    · simp only [List.mem_cons, ih]
      tauto
    · simp only [List.mem_cons]

theorem insByDate_length (c : CommitRec) (l : List CommitRec) :
    (insByDate c l).length = l.length + 1 := by
  induction l with
  | nil => rfl
  | cons d ds ih =>
    simp only [insByDate]
    split
    · simp [ih]
    · simp

theorem insByDate_pairwise {c : CommitRec} {l : List CommitRec}
    (h : l.Pairwise dateLe) : (insByDate c l).Pairwise dateLe := by
  induction l with
  | nil => simp [insByDate, List.pairwise_cons]
  | cons d ds ih =>
    rcases List.pairwise_cons.mp h with ⟨hd, hds⟩
    simp only [insByDate]
    split
    case isTrue hle =>
      refine List.pairwise_cons.mpr ⟨?_, ih hds⟩
      intro x hx
      rcases mem_insByDate.mp hx with rfl | hx
      · exact hle
      · exact hd x hx
    case isFalse hle =>
      have hcd : dateLe c d := by
        rcases strLe_total (dateStr c) (dateStr d) with h' | h'
        · exact h'
        · exact absurd h' hle
      refine List.pairwise_cons.mpr ⟨?_, h⟩
      intro x hx
      rcases List.mem_cons.mp hx with rfl | hx
      · exact hcd
      · exact strLe_trans hcd (hd x hx)

theorem foldl_ins_mem (l : List CommitRec) :
    ∀ (acc : List CommitRec) (x : CommitRec),
      (x ∈ l.foldl (fun acc c => insByDate c acc) acc) ↔ x ∈ acc ∨ x ∈ l := by
  induction l with
  | nil => simp
  | cons c cs ih =>
    intro acc x
    simp only [List.foldl_cons, ih, mem_insByDate, List.mem_cons]
    tauto

theorem foldl_ins_length (l : List CommitRec) :
    ∀ acc : List CommitRec,
      (l.foldl (fun acc c => insByDate c acc) acc).length = acc.length + l.length := by
  induction l with
  | nil => simp
  | cons c cs ih =>
    intro acc
    simp only [List.foldl_cons, ih, insByDate_length, List.length_cons]
    omega

theorem foldl_ins_pairwise (l : List CommitRec) :
    ∀ acc : List CommitRec, acc.Pairwise dateLe →
      (l.foldl (fun acc c => insByDate c acc) acc).Pairwise dateLe := by
  induction l with
  | nil => intro acc h; simpa using h
  | cons c cs ih =>
    intro acc h
    exact ih _ (insByDate_pairwise h)

theorem sortByDate_mem {x : CommitRec} {l : List CommitRec} :
    x ∈ sortByDate l ↔ x ∈ l := by
  simp [sortByDate, foldl_ins_mem]

theorem sortByDate_length (l : List CommitRec) : (sortByDate l).length = l.length := by
  simp [sortByDate, foldl_ins_length]

theorem sortByDate_pairwise (l : List CommitRec) : (sortByDate l).Pairwise dateLe :=
  foldl_ins_pairwise l [] (List.Pairwise.nil)

theorem pySortedByDate_mem {x : CommitRec} {l : List CommitRec} :
    x ∈ pySortedByDate l ↔ x ∈ l := by
  unfold pySortedByDate
  split
  · rfl
  · exact sortByDate_mem

theorem pySortedByDate_length (l : List CommitRec) :
    (pySortedByDate l).length = l.length := by
  unfold pySortedByDate
  split
  · rfl
  · exact sortByDate_length l

theorem pySortedByDate_pairwise (l : List CommitRec)
    (h : ∀ c ∈ l, (dateKey c).isSome = true) :
    (pySortedByDate l).Pairwise dateLe := by
  unfold pySortedByDate
  have hany : l.any (fun c => (dateKey c).isNone) = false := by
    simp only [List.any_eq_false]
    intro c hc
    simp [Option.isNone_iff_eq_none]
    intro hn
    have := h c hc
    rw [hn] at this
    simp at this
  rw [hany]
  simp only [Bool.and_false, if_false]
  exact sortByDate_pairwise l

theorem pySortedByDate_head_min (l : List CommitRec)
    (hsome : ∀ c ∈ l, (dateKey c).isSome = true) (hne : l ≠ []) :
    ∀ c ∈ l, strLe (dateStr (pySortedByDate l).headI) (dateStr c) = true := by
  have hp := pySortedByDate_pairwise l hsome
  obtain ⟨f, rest, hfr⟩ : ∃ f rest, pySortedByDate l = f :: rest := by
    cases hl : pySortedByDate l with
    | nil =>
      exfalso
      have := pySortedByDate_length l
      rw [hl] at this
      exact hne (List.length_eq_zero.mp this.symm)
    | cons f rest => exact ⟨f, rest, rfl⟩
  intro c hc
  have hc' : c ∈ pySortedByDate l := pySortedByDate_mem.mpr hc
  rw [hfr] at hc' hp
  rw [hfr]
  simp only [List.headI]
  rcases List.mem_cons.mp hc' with rfl | hmem
  · exact strLe_refl _
  · exact (List.pairwise_cons.mp hp).1 c hmem

/-! ### Lemmas: first-occurrence grouping -/

theorem mem_dedupFirst_go (l : List String) :
    ∀ (acc : List String) (k : String),
      (k ∈ l.foldl (fun acc k => if k ∈ acc then acc else acc ++ [k]) acc)
        ↔ k ∈ acc ∨ k ∈ l := by
  induction l with
  | nil => simp
  | cons a as ih =>
    intro acc k
    simp only [List.foldl_cons, ih, List.mem_cons]
    by_cases ha : a ∈ acc
    · rw [if_pos ha]
      constructor
      · tauto
      · rintro (h | rfl | h) <;> [tauto; exact Or.inl ha; tauto]
    · rw [if_neg ha]
      simp only [List.mem_append, List.mem_singleton]
      tauto

theorem mem_dedupFirst {k : String} {l : List String} : k ∈ dedupFirst l ↔ k ∈ l := by
  simp [dedupFirst, mem_dedupFirst_go]

theorem dedupFirst_nodup_go (l : List String) :
    ∀ acc : List String, acc.Nodup →
      (l.foldl (fun acc k => if k ∈ acc then acc else acc ++ [k]) acc).Nodup := by
  induction l with
  | nil => intro acc h; simpa using h
  | cons a as ih =>
    intro acc h
    simp only [List.foldl_cons]
    by_cases ha : a ∈ acc
    · rw [if_pos ha]; exact ih acc h
    · rw [if_neg ha]
      refine ih _ ?_
      rw [List.nodup_append]
      exact ⟨h, List.nodup_singleton a,
        fun x hx hxa => ha (List.mem_singleton.mp hxa ▸ hx)⟩

theorem dedupFirst_nodup (l : List String) : (dedupFirst l).Nodup :=
  dedupFirst_nodup_go l [] List.nodup_nil

theorem dedupFirst_concat (l : List String) (k : String) :
    dedupFirst (l ++ [k])
      = if k ∈ dedupFirst l then dedupFirst l else dedupFirst l ++ [k] := by
  simp [dedupFirst, List.foldl_append]

theorem groupInsert_map_mem {k : String} {c : CommitRec} (G : String → List CommitRec)
    (keys : List String) (hn : keys.Nodup) (hk : k ∈ keys) :
    groupInsert k c (keys.map (fun a => (a, G a)))
      = keys.map (fun a => (a, if a = k then G a ++ [c] else G a)) := by
  induction keys with
  | nil => cases hk
  | cons a as ih =>
    rcases List.nodup_cons.mp hn with ⟨hna, hnas⟩
    simp only [List.map_cons, groupInsert]
    by_cases hak : a = k
    · subst hak
      rw [if_pos rfl, if_pos rfl]
      congr 1
      refine (List.map_congr_left ?_).symm
      intro x hx
      have : x ≠ a := fun h => hna (h ▸ hx)
      simp [this]
    · rw [if_neg hak, if_neg hak]
      congr 1
      exact ih hnas (List.mem_of_ne_of_mem (fun h => hak h.symm) hk)

theorem groupInsert_map_notmem {k : String} {c : CommitRec} (G : String → List CommitRec)
    (keys : List String) (hk : k ∉ keys) :
    groupInsert k c (keys.map (fun a => (a, G a)))
      = keys.map (fun a => (a, G a)) ++ [(k, [c])] := by
  induction keys with
  | nil => rfl
  | cons a as ih =>
    have hak : a ≠ k := fun h => hk (h ▸ List.mem_cons_self a as)
    simp only [List.map_cons, groupInsert, if_neg hak, List.cons_append]
    congr 1
    exact ih (fun h => hk (List.mem_cons_of_mem a h))

/-- Structural characterization of the grouping fold: the groups are listed in
first-occurrence order of their keys, and each group is the in-order filter of
the commits whose key matches. -/
theorem groupByAuthor_eq (cs : List CommitRec) :
    groupByAuthor cs
      = (dedupFirst (cs.filterMap groupKey)).map (fun a => (a, groupOf cs a)) := by
  induction cs using List.reverseRecOn with
  | nil => rfl
  | append_singleton cs c ih =>
    cases hk : groupKey c with
    | none =>
      have hstep : groupByAuthor (cs ++ [c]) = groupByAuthor cs := by
        simp [groupByAuthor, List.foldl_append, hk]
      rw [hstep, ih]
      have hfm : (cs ++ [c]).filterMap groupKey = cs.filterMap groupKey := by
        simp [List.filterMap_append, hk]
      have hgo : ∀ a, groupOf (cs ++ [c]) a = groupOf cs a := by
        intro a
        simp [groupOf, List.filter_append, hk]
      rw [hfm]
      exact List.map_congr_left (fun a _ => by rw [hgo a])
    | some k =>
      have hstep : groupByAuthor (cs ++ [c]) = groupInsert k c (groupByAuthor cs) := by
        simp [groupByAuthor, List.foldl_append, hk]
      rw [hstep, ih]
      have hfm : (cs ++ [c]).filterMap groupKey = cs.filterMap groupKey ++ [k] := by
        simp [List.filterMap_append, hk]
      have hgo : ∀ a, groupOf (cs ++ [c]) a
          = groupOf cs a ++ (if a = k then [c] else []) := by
        intro a
        by_cases hak : a = k
        · subst hak
          simp [groupOf, List.filter_append, hk]
        · have hka : ¬(k = a) := fun h => hak h.symm
          simp [groupOf, List.filter_append, hk, hak, hka]
      by_cases hmem : k ∈ dedupFirst (cs.filterMap groupKey)
      · rw [groupInsert_map_mem (fun a => groupOf cs a) _ (dedupFirst_nodup _) hmem]
        rw [hfm, dedupFirst_concat, if_pos hmem]
        refine List.map_congr_left (fun a _ => ?_)
        rw [hgo a]
        by_cases hak : a = k <;> simp [hak]
      · rw [groupInsert_map_notmem (fun a => groupOf cs a) _ hmem]
        rw [hfm, dedupFirst_concat, if_neg hmem]
        rw [List.map_append]
        congr 1
        · refine List.map_congr_left (fun a ha => ?_)
          have hak : a ≠ k := fun h => hmem (h ▸ ha)
          rw [hgo a, if_neg hak, List.append_nil]
        · have hempty : groupOf cs k = [] := by
            rw [groupOf, List.filter_eq_nil_iff]
            intro x hx hpx
            apply hmem
            rw [mem_dedupFirst, List.mem_filterMap]
            exact ⟨x, hx, by simpa using hpx⟩
          simp [hgo k, hempty]

theorem groupOf_ne_nil {cs : List CommitRec} {a : String}
    (ha : a ∈ dedupFirst (cs.filterMap groupKey)) : groupOf cs a ≠ [] := by
  rw [mem_dedupFirst, List.mem_filterMap] at ha
  obtain ⟨c, hc, hgk⟩ := ha
  intro hnil
  have hmem : c ∈ groupOf cs a := by
    rw [groupOf, List.mem_filter]
    exact ⟨hc, by simp [hgk]⟩
  rw [hnil] at hmem
  cases hmem

theorem pySortedByDate_ne_nil {l : List CommitRec} (h : l ≠ []) :
    pySortedByDate l ≠ [] := by
  intro h0
  apply h
  have hlen := pySortedByDate_length l
  rw [h0] at hlen
  exact List.length_eq_zero.mp hlen.symm

theorem flatMap_map_eq_map {α β γ : Type} (f : α → β) (h : β → List γ) (g : α → γ)
    (l : List α) (hp : ∀ a ∈ l, h (f a) = [g a]) : (l.map f).flatMap h = l.map g := by
  induction l with
  | nil => rfl
  | cons a as ih =>
    simp only [List.map_cons, List.flatMap_cons, hp a (List.mem_cons_self a as)]
    rw [ih (fun x hx => hp x (List.mem_cons_of_mem a hx))]
    rfl

/-- Concrete commits of the spec's derivation-correctness example. -/
def exCommitA : CommitRec := { author_login := .str "a", date := .str "2020-02-01" }

def exCommitB : CommitRec := { author_login := .str "a", date := .str "2020-01-01" }

def exCommitC : CommitRec := { author_login := .str "b", date := .str "2020-03-01" }

def exCommits : List CommitRec := [exCommitA, exCommitB, exCommitC]

/-- A commit with neither a login nor a display name: both fields are present
holding `null`, as `fetch_commits` stores for an unattributed commit. -/
def exNoIdentity : CommitRec :=
  { author_login := .null, author := .null, date := .str "2020-01-01" }

/-- Claim C1, counterexample.  The claim says a commit with neither login nor
name is grouped under the identity `"unknown"` and so yields an output record;
the code's `c.get("author_login") or c.get("author", "unknown")` evaluates to
`None` when the `author` key is present holding `null`, so the `if author:`
guard drops the commit and the derivation returns no record at all. -/
theorem claim1_first_commits_counterexample :
    first_commits_by_author [exNoIdentity] = []
    ∧ specIdentity exNoIdentity = "unknown" := by
  constructor
  · rfl
  · rfl

/-- Claim C1, amended.  `first_commits_by_author` returns exactly one record
per distinct truthy author key — the commit's login when that is a non-empty
string, otherwise the fallback `c.get("author", "unknown")` when that value is
truthy (a commit whose fallback is `null` or `""` is dropped) — in
first-appearance order; each record is built from the group member with the
lexicographically smallest date string (earliest fetch position on ties)
whenever every group member's date key is a string; and on the spec's concrete
example it returns exactly the two records `a @ 2020-01-01` and
`b @ 2020-03-01`. -/
theorem claim1_first_commits_theorem (cs : List CommitRec) :
    (first_commits_by_author cs
        = (dedupFirst (cs.filterMap groupKey)).map
            (fun a => mkFirstCommit a (firstOfGroup cs a)))
    ∧ (∀ a ∈ dedupFirst (cs.filterMap groupKey),
        firstOfGroup cs a ∈ groupOf cs a
        ∧ ((∀ c ∈ groupOf cs a, (dateKey c).isSome = true) →
            ∀ c ∈ groupOf cs a,
              strLe (dateStr (firstOfGroup cs a)) (dateStr c) = true))
    ∧ (first_commits_by_author exCommits).map (fun r => (r.author, r.date))
        = [("a", some "2020-01-01"), ("b", some "2020-03-01")] := by
  refine ⟨?_, ?_, by decide⟩
  · rw [first_commits_by_author, groupByAuthor_eq]
    refine flatMap_map_eq_map _ _ _ _ (fun a ha => ?_)
    have hne : pySortedByDate (groupOf cs a) ≠ [] :=
      pySortedByDate_ne_nil (groupOf_ne_nil ha)
    cases hsl : pySortedByDate (groupOf cs a) with
    | nil => exact absurd hsl hne
    | cons f rest =>
      simp only [hsl]
      rw [firstOfGroup, hsl]
      rfl
  · intro a ha
    have hne : pySortedByDate (groupOf cs a) ≠ [] :=
      pySortedByDate_ne_nil (groupOf_ne_nil ha)
    constructor
    · cases hsl : pySortedByDate (groupOf cs a) with
      | nil => exact absurd hsl hne
      | cons f rest =>
        have : f ∈ pySortedByDate (groupOf cs a) := by
          rw [hsl]; exact List.mem_cons_self f rest
        rw [firstOfGroup, hsl]
        exact pySortedByDate_mem.mp this
    · intro hsome c hc
      exact pySortedByDate_head_min _ hsome (groupOf_ne_nil ha) c hc

/-- Claim C1, witness: the amended theorem applied to the spec's concrete
example, with the date-minimality hypotheses discharged by evaluation. -/
theorem claim1_first_commits_witness :
    ((first_commits_by_author exCommits).map (fun r => (r.author, r.date))
        = [("a", some "2020-01-01"), ("b", some "2020-03-01")])
    ∧ strLe (dateStr (firstOfGroup exCommits "a")) (dateStr exCommitA) = true := by
  constructor
  · exact (claim1_first_commits_theorem exCommits).2.2
  · exact ((claim1_first_commits_theorem exCommits).2.1 "a" (by decide)).2
      (by decide) exCommitA (by decide)

/-- Claim C7.  `infer_commit_type` tests message keyword sets in the priority
order `ci > docs > test > config` and returns the first matching label; only
when no message keyword matches does it inspect the changed files, taking the
first file that matches one of the per-file rules (`fileLabel`, in source
order docs/test/config/ci) and returning its label; it returns `"code"` when
no message keyword and no file rule matches; and the commit message
`"docs: update ci workflow"` classifies as `ci`. -/
theorem claim7_infer_commit_type_theorem :
    (∀ (m : String) (files : List ChangedFile),
        msgHas ciMsgKws m = true → infer_commit_type (some m) files = "ci")
    ∧ (∀ (m : String) (files : List ChangedFile),
        msgHas ciMsgKws m = false → msgHas docsMsgKws m = true →
          infer_commit_type (some m) files = "docs")
    ∧ (∀ (m : String) (files : List ChangedFile),
        msgHas ciMsgKws m = false → msgHas docsMsgKws m = false →
          msgHas testMsgKws m = true → infer_commit_type (some m) files = "test")
    ∧ (∀ (m : String) (files : List ChangedFile),
        msgHas ciMsgKws m = false → msgHas docsMsgKws m = false →
          msgHas testMsgKws m = false → msgHas configMsgKws m = true →
            infer_commit_type (some m) files = "config")
    ∧ (∀ (m : String) (files : List ChangedFile),
        msgHas ciMsgKws m = false → msgHas docsMsgKws m = false →
          msgHas testMsgKws m = false → msgHas configMsgKws m = false →
            files.findSome? fileLabel = none → infer_commit_type (some m) files = "code")
    ∧ (∀ (m : String) (f : ChangedFile) (rest : List ChangedFile) (lbl : String),
        msgHas ciMsgKws m = false → msgHas docsMsgKws m = false →
          msgHas testMsgKws m = false → msgHas configMsgKws m = false →
            fileLabel f = some lbl → infer_commit_type (some m) (f :: rest) = lbl)
    ∧ infer_commit_type (some "docs: update ci workflow") [] = "ci" := by
  refine ⟨?_, ?_, ?_, ?_, ?_, ?_, by decide⟩
  · intro m files h
    simp [infer_commit_type, h]
  · intro m files h1 h2
    simp [infer_commit_type, h1, h2]
  · intro m files h1 h2 h3
    simp [infer_commit_type, h1, h2, h3]
  · intro m files h1 h2 h3 h4
    simp [infer_commit_type, h1, h2, h3, h4]
  · intro m files h1 h2 h3 h4 hf
    simp [infer_commit_type, h1, h2, h3, h4, hf]
  · intro m f rest lbl h1 h2 h3 h4 hf
    simp [infer_commit_type, h1, h2, h3, h4, List.findSome?_cons, hf]

/-- Claim C7, witness: every stage of the priority cascade exercised on a
concrete message or file list. -/
theorem claim7_infer_commit_type_witness :
    infer_commit_type (some "add ci: pipeline") [] = "ci"
    ∧ infer_commit_type (some "update readme") [] = "docs"
    ∧ infer_commit_type (some "unittest added") [] = "test"
    ∧ infer_commit_type (some "configure build") [] = "config"
    ∧ infer_commit_type (some "misc change") [] = "code"
    ∧ infer_commit_type (some "misc change") [.fdict "guide.md" 0 0] = "docs" := by
  refine ⟨?_, ?_, ?_, ?_, ?_, ?_⟩
  · exact claim7_infer_commit_type_theorem.1 _ [] (by decide)
  · exact claim7_infer_commit_type_theorem.2.1 _ [] (by decide) (by decide)
  · exact claim7_infer_commit_type_theorem.2.2.1 _ [] (by decide) (by decide) (by decide)
  · exact claim7_infer_commit_type_theorem.2.2.2.1 _ [] (by decide) (by decide)
      (by decide) (by decide)
  · exact claim7_infer_commit_type_theorem.2.2.2.2.1 _ [] (by decide) (by decide)
      (by decide) (by decide) (by decide)
  · exact claim7_infer_commit_type_theorem.2.2.2.2.2.1 _ _ [] _ (by decide) (by decide)
      (by decide) (by decide) (by decide)

/-! ### Offset-paginated REST fetchers

`fetch_rest` returns the parsed JSON body on a 200 status and `None`
otherwise (logging, not raising).  The page loops stop on a falsy result, a
non-list result, or an empty page, and otherwise normalize the page's records
and continue with `page + 1`. -/

/-- A `fetch_rest` page result: `none` models a non-success status, `rlist`
a JSON list body, `other` a truthy non-list body. -/
inductive RestPage (α : Type) where
  | rlist (records : List α)
  | other
deriving DecidableEq, Repr

/-- True when the page loop's break conditions fire:
`if not r: break` / `if not isinstance(r, list) or len(r) == 0: break`. -/
def pageStops {α : Type} (r : Option (RestPage α)) : Bool :=
  match r with
  | none => true
  | some (.rlist []) => true
  | some (.rlist (_ :: _)) => false
  | some .other => true

/-- The shared shape of the offset-paginated loops (`fetch_commits`,
`fetch_maintainers`, ...): request page `p`, stop on a failed/non-list/empty
response, otherwise append the page's normalization and continue.  `fuel`
bounds the unbounded `while True`; every theorem assumes enough fuel to reach
the stopping page.  Returns the accumulated records and the number of page
requests made. -/
def paginate {α β : Type} (pages : Nat → Option (RestPage α)) (norm : List α → List β) :
    Nat → Nat → List β × Nat
  | 0, _ => ([], 0)
  | fuel + 1, p =>
    match pages p with
    | none => ([], 1)
    | some .other => ([], 1)
    | some (.rlist []) => ([], 1)
    | some (.rlist (r :: rs)) =>
      let rest := paginate pages norm fuel (p + 1)
      (norm (r :: rs) ++ rest.1, rest.2 + 1)

/-- The raw REST commit object, flattened along the nested `dict.get` paths
`fetch_commits` reads (`(c.get("commit") or {}).get("author", {}).get(...)`,
`(c.get("author") or {}).get("login")`, `c.get("stats", {}).get(..., 0)` with
the integer defaults already resolved). -/
structure RawCommit where
  sha : PyVal := .absent
  commit_author_name : PyVal := .absent
  commit_author_date : PyVal := .absent
  commit_message : PyVal := .absent
  author_login : PyVal := .absent
  files : List ChangedFile := []
  stats_additions : Int := 0
  stats_deletions : Int := 0
  stats_total : Int := 0
deriving DecidableEq, Repr, Inhabited

/-- The normalized record `fetch_commits` appends for each raw commit. -/
def normCommit (c : RawCommit) : CommitRec :=
  { sha := c.sha
    author := c.commit_author_name
    author_login := c.author_login
    date := c.commit_author_date
    message := c.commit_message
    files_changed := c.files
    stats := some
      { additions := .int c.stats_additions
        deletions := .int c.stats_deletions
        total := .int c.stats_total } }

/-- `fetch_commits(owner, repo)`: offset pagination from page 1, normalizing
every record of every page. -/
def fetch_commits (pages : Nat → Option (RestPage RawCommit)) (fuel : Nat) :
    List CommitRec × Nat :=
  paginate pages (fun rs => rs.map normCommit) fuel 1

/-- The `permissions` sub-dict of a collaborator record. -/
structure Perms where
  admin : Option Bool := none
  push : Option Bool := none
  pull : Option Bool := none
deriving DecidableEq, Repr

/-- A raw collaborator record as `fetch_maintainers` reads it. -/
structure RawCollab where
  login : PyVal := .absent
  type : PyVal := .absent
  permissions : Option Perms := none
deriving DecidableEq, Repr

/-- `perm = (collab.get("permissions") or {})`. -/
def collabPerm (c : RawCollab) : Perms :=
  c.permissions.getD {}

/-- One element of the `maintainers` resource. -/
structure Maintainer where
  login : PyVal
  type : PyVal
  permissions : Perms
deriving DecidableEq, Repr

/-- `fetch_maintainers(owner, repo)`: offset pagination from page 1, keeping
only collaborators whose `permissions.push` is truthy. -/
def fetch_maintainers (pages : Nat → Option (RestPage RawCollab)) (fuel : Nat) :
    List Maintainer × Nat :=
  paginate pages
    (fun rs =>
      (rs.filter (fun c => (collabPerm c).push == some true)).map
        (fun c => { login := c.login, type := c.type, permissions := collabPerm c }))
    fuel 1

/-- An oracle serving the non-empty page bodies `ps` (1-based) followed by
the stopping response `stop` forever after. -/
def pagesFrom {α : Type} (ps : List (List α)) (stop : Option (RestPage α)) (n : Nat) :
    Option (RestPage α) :=
  if h : n - 1 < ps.length then some (.rlist (ps.get ⟨n - 1, h⟩)) else stop

/-- Hypotheses under which a page oracle serves exactly the page bodies `ps`
starting at page `p`: each listed page is a non-empty list, and the next page
triggers a stop. -/
def servesFrom {α : Type} (pages : Nat → Option (RestPage α)) (ps : List (List α))
    (p : Nat) : Prop :=
  (∀ j (hj : j < ps.length), pages (p + j) = some (.rlist (ps.get ⟨j, hj⟩))
      ∧ ps.get ⟨j, hj⟩ ≠ [])
  ∧ pageStops (pages (p + ps.length)) = true

theorem paginate_eq {α β : Type} (pages : Nat → Option (RestPage α))
    (norm : List α → List β) :
    ∀ (ps : List (List α)) (p fuel : Nat), servesFrom pages ps p →
      ps.length < fuel →
      paginate pages norm fuel p = ((ps.map norm).flatten, ps.length + 1) := by
  intro ps
  induction ps with
  | nil =>
    intro p fuel hs hf
    obtain ⟨fuel, rfl⟩ : ∃ f, fuel = f + 1 := ⟨fuel - 1, by omega⟩
    have hstop := hs.2
    simp only [List.length_nil, Nat.add_zero] at hstop
    simp only [paginate]
    cases hp : pages p with
    | none => simp
    | some r =>
      cases r with
      | rlist records =>
        cases records with
        | nil => simp
        | cons a as => rw [hp] at hstop; simp [pageStops] at hstop
      | other => simp
  | cons pg ps ih =>
    intro p fuel hs hf
    obtain ⟨fuel, rfl⟩ : ∃ f, fuel = f + 1 := ⟨fuel - 1, by omega⟩
    obtain ⟨hpage, hpgne⟩ := hs.1 0 (by simp)
    simp only [Nat.add_zero] at hpage
    simp only [List.get] at hpage hpgne
    obtain ⟨r, rs, rfl⟩ : ∃ r rs, pg = r :: rs := by
      cases pg with
      | nil => exact absurd rfl hpgne
      | cons r rs => exact ⟨r, rs, rfl⟩
    have hrest : paginate pages norm fuel (p + 1) = ((ps.map norm).flatten, ps.length + 1) := by
      refine ih (p + 1) fuel ⟨?_, ?_⟩ (by simpa using Nat.lt_of_succ_lt_succ hf)
      · intro j hj
        have := hs.1 (j + 1) (by simpa using Nat.succ_lt_succ hj)
        simpa [Nat.add_comm, Nat.add_assoc, Nat.add_left_comm] using this
      · have := hs.2
        simpa [Nat.add_comm, Nat.add_assoc, Nat.add_left_comm] using this
    simp only [paginate, hpage, hrest]
    simp

theorem paginate_mem {α β : Type} (pages : Nat → Option (RestPage α))
    (norm : List α → List β) :
    ∀ (fuel p : Nat) (x : β), x ∈ (paginate pages norm fuel p).1 →
      ∃ rs, x ∈ norm rs := by
  intro fuel
  induction fuel with
  | zero => intro p x hx; simp [paginate] at hx
  | succ fuel ih =>
    intro p x hx
    simp only [paginate] at hx
    cases hp : pages p with
    | none => rw [hp] at hx; simp at hx
    | some r =>
      rw [hp] at hx
      cases r with
      | other => simp at hx
      | rlist records =>
        cases records with
        | nil => simp at hx
        | cons a as =>
          simp only [List.mem_append] at hx
          rcases hx with hx | hx
          · exact ⟨a :: as, hx⟩
          · exact ih (p + 1) x hx

theorem filter_map_flatten {α β : Type} (p : α → Bool) (f : α → β) (ps : List (List α)) :
    (ps.map (fun pg => (pg.filter p).map f)).flatten = (ps.flatten.filter p).map f := by
  induction ps with
  | nil => rfl
  | cons pg ps ih => simp [List.filter_append, ih]

/-- Claim C5.  The offset-paginated REST fetch requests consecutive pages
starting at 1, stops at the first non-success response or first empty page
without raising, and returns the concatenation of the normalized records of
the successful non-empty pages; given pages `[n1, n2, ∅]` it returns
`n1 ++ n2` (normalized) and makes exactly 3 page requests. -/
theorem claim5_fetch_commits_theorem :
    (∀ (pages : Nat → Option (RestPage RawCommit)) (ps : List (List RawCommit))
        (fuel : Nat), servesFrom pages ps 1 → ps.length < fuel →
          fetch_commits pages fuel
            = ((ps.map (fun pg => pg.map normCommit)).flatten, ps.length + 1))
    ∧ (∀ n1 n2 : List RawCommit, n1 ≠ [] → n2 ≠ [] →
        fetch_commits (pagesFrom [n1, n2] (some (.rlist []))) 3
          = (n1.map normCommit ++ n2.map normCommit, 3)) := by
  constructor
  · intro pages ps fuel hs hf
    exact paginate_eq pages _ ps 1 fuel hs hf
  · intro n1 n2 h1 h2
    have hs : servesFrom (pagesFrom [n1, n2] (some (.rlist []))) [n1, n2] 1 := by
      constructor
      · intro j hj
        match j, hj with
        | 0, _ => simp [pagesFrom, h1]
        | 1, _ => simp [pagesFrom, h2]
      · simp [pagesFrom, pageStops]
    have h := paginate_eq (pagesFrom [n1, n2] (some (.rlist [])))
      (fun rs => rs.map normCommit) [n1, n2] 1 3 hs (by norm_num)
    simpa [fetch_commits] using h

/-- Claim C5, witness: two concrete one-record pages followed by an empty
page. -/
theorem claim5_fetch_commits_witness :
    fetch_commits
        (pagesFrom [[{ sha := .str "s1" }], [{ sha := .str "s2" }]] (some (.rlist []))) 3
      = ([normCommit { sha := .str "s1" }, normCommit { sha := .str "s2" }], 3) := by
  have h := claim5_fetch_commits_theorem.2 [{ sha := .str "s1" }] [{ sha := .str "s2" }]
    (by decide) (by decide)
  simpa using h

/-- Claim C10.  `fetch_maintainers` returns exactly the collaborators whose
`permissions.push` is truthy, shaped as `{login, type, permissions}`, over the
full pagination; and every element of any result has `permissions.push =
true`, so collaborators without push access are excluded. -/
theorem claim10_fetch_maintainers_theorem :
    (∀ (pages : Nat → Option (RestPage RawCollab)) (ps : List (List RawCollab))
        (fuel : Nat), servesFrom pages ps 1 → ps.length < fuel →
          fetch_maintainers pages fuel
            = ((ps.flatten.filter (fun c => (collabPerm c).push == some true)).map
                (fun c => ({ login := c.login, type := c.type,
                             permissions := collabPerm c } : Maintainer)),
               ps.length + 1))
    ∧ (∀ (pages : Nat → Option (RestPage RawCollab)) (fuel : Nat),
        ∀ m ∈ (fetch_maintainers pages fuel).1, m.permissions.push = some true) := by
  constructor
  · intro pages ps fuel hs hf
    have h := paginate_eq pages
      (fun rs =>
        (rs.filter (fun c => (collabPerm c).push == some true)).map
          (fun c => ({ login := c.login, type := c.type,
                       permissions := collabPerm c } : Maintainer)))
      ps 1 fuel hs hf
    rw [fetch_maintainers, h, filter_map_flatten]
  · intro pages fuel m hm
    obtain ⟨rs, hrs⟩ := paginate_mem pages _ fuel 1 m hm
    simp only [List.mem_map, List.mem_filter] at hrs
    obtain ⟨c, ⟨_, hpush⟩, rfl⟩ := hrs
    simpa using hpush

/-- A collaborator with push access. -/
def exCollabPush : RawCollab :=
  { login := .str "alice", type := .str "User",
    permissions := some { admin := some false, push := some true, pull := some true } }

/-- A collaborator without push access. -/
def exCollabNoPush : RawCollab :=
  { login := .str "bob", type := .str "User",
    permissions := some { admin := some false, push := some false, pull := some true } }

/-- Claim C10, witness: one concrete page holding a push collaborator and a
non-push collaborator; only the former is returned, with push permission. -/
theorem claim10_fetch_maintainers_witness :
    fetch_maintainers (pagesFrom [[exCollabPush, exCollabNoPush]] none) 2
      = ([{ login := .str "alice", type := .str "User",
            permissions := { admin := some false, push := some true, pull := some true } }], 2)
    ∧ ∀ m ∈ (fetch_maintainers (pagesFrom [[exCollabPush, exCollabNoPush]] none) 2).1,
        m.permissions.push = some true := by
  have hs : servesFrom (pagesFrom [[exCollabPush, exCollabNoPush]] none)
      [[exCollabPush, exCollabNoPush]] 1 := by
    constructor
    · intro j hj
      match j, hj with
      | 0, _ => exact ⟨rfl, by simp⟩
    · decide
  constructor
  · have h := claim10_fetch_maintainers_theorem.1 _ _ 2 hs (by norm_num)
    rw [h]
    decide
  · exact claim10_fetch_maintainers_theorem.2 _ 2

/-! ### `fetch_repo_general_info` -/

/-- The fields `fetch_repo_general_info` reads from the `/repos/{owner}/{repo}`
response, with `(r.get("license") or {}).get(...)` flattened. -/
structure RawRepo where
  full_name : PyVal := .absent
  html_url : PyVal := .absent
  description : PyVal := .absent
  archived : Option Bool := none
  fork : Option Bool := none
  default_branch : PyVal := .absent
  license_spdx_id : PyVal := .absent
  license_name : PyVal := .absent
  size : PyIntV := .absent
  language : PyVal := .absent
  topics : Option (List String) := none
  stargazers_count : PyIntV := .absent
  forks_count : PyIntV := .absent
  open_issues_count : PyIntV := .absent
  subscribers_count : PyIntV := .absent
  watchers_count : PyIntV := .absent
  created_at : PyVal := .absent
  updated_at : PyVal := .absent
  pushed_at : PyVal := .absent
deriving DecidableEq, Repr

/-- The `general_info` payload the fetcher builds. -/
structure GeneralInfo where
  full_name : Option String
  html_url : Option String
  description : Option String
  archived : Option Bool
  fork : Option Bool
  default_branch : Option String
  license : Option String
  size : Option Int
  language : Option String
  topics : Option (List String)
  stargazers_count : Option Int
  forks_count : Option Int
  open_issues_count : Option Int
  subscribers_count : Option Int
  watchers_count : Option Int
  commits_count : Nat
  created_at : Option String
  updated_at : Option String
  pushed_at : Option String
deriving DecidableEq, Repr

/-- `fetch_repo_general_info(owner, repo)`: one lookup request, then — only
when the lookup is truthy — a full `fetch_commits` pagination whose length
becomes `commits_count` (`len(commits) if isinstance(commits, list) else 0`;
the fetch always returns a list, so the guard's else-branch is dead).
Returns the payload (or `None` on a failed lookup) and the number of REST
requests made. -/
def fetch_repo_general_info (repoResp : Option RawRepo)
    (pages : Nat → Option (RestPage RawCommit)) (fuel : Nat) :
    Option GeneralInfo × Nat :=
  match repoResp with
  | none => (none, 1)
  | some r =>
    let commits := fetch_commits pages fuel
    (some
      { full_name := r.full_name.get
        html_url := r.html_url.get
        description := r.description.get
        archived := r.archived
        fork := r.fork
        default_branch := r.default_branch.get
        license :=
          if pyTruthy r.license_spdx_id.get then r.license_spdx_id.get
          else r.license_name.get
        size := r.size.getD none
        language := r.language.get
        topics := r.topics
        stargazers_count := r.stargazers_count.getD none
        forks_count := r.forks_count.getD none
        open_issues_count := r.open_issues_count.getD none
        subscribers_count := r.subscribers_count.getD none
        watchers_count := r.watchers_count.getD none
        commits_count := commits.1.length
        created_at := r.created_at.get
        updated_at := r.updated_at.get
        pushed_at := r.pushed_at.get },
     1 + commits.2)

/-- Claim C8.  Whenever the repository lookup succeeds, the `general_info`
payload's `commits_count` equals the length of the fully paginated commits
sequence (and the fetch issues the lookup request plus every commits page
request before returning); an empty pagination yields `commits_count = 0`. -/
theorem claim8_general_info_theorem (r : RawRepo)
    (pages : Nat → Option (RestPage RawCommit)) (fuel : Nat) :
    ((fetch_repo_general_info (some r) pages fuel).1.map
        (fun g => g.commits_count) = some (fetch_commits pages fuel).1.length)
    ∧ (fetch_repo_general_info (some r) pages fuel).2 = 1 + (fetch_commits pages fuel).2
    ∧ (fetch_repo_general_info (some r) (fun _ => none) 1).1.map
        (fun g => g.commits_count) = some 0 := by
  exact ⟨rfl, rfl, rfl⟩

/-! ### `fetch_weekly_commit_activity`, the async poller -/

/-- Decimal digits of `n`, most significant first (`fuel` bounds recursion on
`n / 10`; 20 digits cover every input used). -/
def natDigits : Nat → Nat → List Char
  | 0, _ => []
  | _ + 1, 0 => []
  | fuel + 1, n => natDigits fuel (n / 10) ++ [Char.ofNat (48 + n % 10)]

/-- Decimal rendering of a natural number. -/
def natToStr (n : Nat) : String :=
  if n = 0 then "0" else ⟨natDigits 20 n⟩

/-- Zero-padded two-digit field of `strftime`. -/
def pad2 (n : Nat) : String :=
  if n < 10 then "0" ++ natToStr n else natToStr n

/-- Zero-padded four-digit year field of `strftime`. -/
def pad4 (n : Nat) : String :=
  if n < 10 then "000" ++ natToStr n
  else if n < 100 then "00" ++ natToStr n
  else if n < 1000 then "0" ++ natToStr n
  else natToStr n

/-- Gregorian `(year, month, day)` from days since 1970-01-01 (the standard
era-based civil-from-days computation `datetime.utcfromtimestamp` performs). -/
def civilFromDays (z0 : Nat) : Nat × Nat × Nat :=
  let z := z0 + 719468
  let era := z / 146097
  let doe := z % 146097
  let yoe := (doe - doe / 1460 + doe / 36524 - doe / 146096) / 365
  let y := yoe + era * 400
  let doy := doe - (365 * yoe + yoe / 4 - yoe / 100)
  let mp := (5 * doy + 2) / 153
  let d := doy - (153 * mp + 2) / 5 + 1
  let m := if mp < 10 then mp + 3 else mp - 9
  (if m ≤ 2 then y + 1 else y, m, d)

/-- `datetime.utcfromtimestamp(secs).strftime("%Y-%m-%d")` for non-negative
epoch seconds (the stats endpoint reports week starts as epoch seconds). -/
def epochDateStr (secs : Nat) : String :=
  let ymd := civilFromDays (secs / 86400)
  pad4 ymd.1 ++ "-" ++ pad2 ymd.2.1 ++ "-" ++ pad2 ymd.2.2

/-- One weekly bucket of the raw stats body. -/
structure RawWeek where
  week : Nat
  total : Int
deriving DecidableEq, Repr

/-- One normalized weekly bucket. -/
structure WeekOut where
  week : String
  total : Int
deriving DecidableEq, Repr

/-- `{"week": ..., "total": x["total"]}` normalization. -/
def normWeek (x : RawWeek) : WeekOut :=
  { week := epochDateStr x.week, total := x.total }

/-- One response of the stats endpoint: 200 with a JSON body (possibly
`null`, hence `Option`, which `r.json() or []` collapses), 202 while the
platform is still computing, or any other status. -/
inductive StatsResp where
  | success (body : Option (List RawWeek))
  | computing
  | other (code : Nat)
deriving DecidableEq, Repr

/-- The `for attempt in range(retries)` polling loop: remaining attempts,
attempt index, and the number of delay sleeps performed so far.  A 200
normalizes and returns, a 202 sleeps the fixed delay and retries, any other
status breaks; falling out of the loop returns `[]`. -/
def fetchWeeklyAux (resp : Nat → StatsResp) : Nat → Nat → Nat → List WeekOut × Nat
  | 0, _, s => ([], s)
  | n + 1, a, s =>
    match resp a with
    | .success body => ((body.getD []).map normWeek, s)
    | .computing => fetchWeeklyAux resp n (a + 1) (s + 1)
    | .other _ => ([], s)

/-- `fetch_weekly_commit_activity(owner, repo, retries, delay)`: returns the
normalized buckets and the number of delay sleeps performed. -/
def fetch_weekly_commit_activity (resp : Nat → StatsResp) (retries : Nat) :
    List WeekOut × Nat :=
  fetchWeeklyAux resp retries 0 0

theorem fetchWeeklyAux_success (resp : Nat → StatsResp) :
    ∀ (k n a s : Nat) (body : Option (List RawWeek)), k < n →
      (∀ i, i < k → resp (a + i) = .computing) → resp (a + k) = .success body →
      fetchWeeklyAux resp n a s = ((body.getD []).map normWeek, s + k) := by
  intro k
  induction k with
  | zero =>
    intro n a s body hn hcomp hsucc
    obtain ⟨n, rfl⟩ : ∃ m, n = m + 1 := ⟨n - 1, by omega⟩
    simp only [Nat.add_zero] at hsucc
    simp [fetchWeeklyAux, hsucc]
  | succ k ih =>
    intro n a s body hn hcomp hsucc
    obtain ⟨n, rfl⟩ : ∃ m, n = m + 1 := ⟨n - 1, by omega⟩
    have h0 : resp a = .computing := by simpa using hcomp 0 (Nat.succ_pos k)
    simp only [fetchWeeklyAux, h0]
    have := ih n (a + 1) (s + 1) body (by omega)
      (fun i hi => by
        have := hcomp (i + 1) (by omega)
        simpa [Nat.add_comm, Nat.add_assoc, Nat.add_left_comm] using this)
      (by simpa [Nat.add_comm, Nat.add_assoc, Nat.add_left_comm] using hsucc)
    rw [this]
    congr 1
    omega

theorem fetchWeeklyAux_other (resp : Nat → StatsResp) :
    ∀ (k n a s code : Nat), k < n →
      (∀ i, i < k → resp (a + i) = .computing) → resp (a + k) = .other code →
      fetchWeeklyAux resp n a s = ([], s + k) := by
  intro k
  induction k with
  | zero =>
    intro n a s code hn hcomp hother
    obtain ⟨n, rfl⟩ : ∃ m, n = m + 1 := ⟨n - 1, by omega⟩
    simp only [Nat.add_zero] at hother
    simp [fetchWeeklyAux, hother]
  | succ k ih =>
    intro n a s code hn hcomp hother
    obtain ⟨n, rfl⟩ : ∃ m, n = m + 1 := ⟨n - 1, by omega⟩
    have h0 : resp a = .computing := by simpa using hcomp 0 (Nat.succ_pos k)
    simp only [fetchWeeklyAux, h0]
    have := ih n (a + 1) (s + 1) code (by omega)
      (fun i hi => by
        have := hcomp (i + 1) (by omega)
        simpa [Nat.add_comm, Nat.add_assoc, Nat.add_left_comm] using this)
      (by simpa [Nat.add_comm, Nat.add_assoc, Nat.add_left_comm] using hother)
    rw [this]
    congr 1
    omega

theorem fetchWeeklyAux_exhaust :
    ∀ (n a s : Nat), fetchWeeklyAux (fun _ => .computing) n a s = ([], s + n) := by
  intro n
  induction n with
  | zero => intro a s; simp [fetchWeeklyAux]
  | succ n ih =>
    intro a s
    simp only [fetchWeeklyAux]
    rw [ih]
    congr 1
    omega

/-- Claim C6.  The poller returns the normalized weekly buckets on the first
success response (having slept once per preceding 202); on any other status
it returns an empty result; always-202 responses exhaust the bounded retry
count and return an empty result — in particular `retries = 2` with
always-computing responses returns `([], 2 sleeps)` without raising (the
model is a total function). -/
theorem claim6_weekly_poller_theorem :
    (∀ (resp : Nat → StatsResp) (retries k : Nat) (body : Option (List RawWeek)),
        k < retries → (∀ i, i < k → resp i = .computing) → resp k = .success body →
          fetch_weekly_commit_activity resp retries = ((body.getD []).map normWeek, k))
    ∧ (∀ (resp : Nat → StatsResp) (retries k code : Nat),
        k < retries → (∀ i, i < k → resp i = .computing) → resp k = .other code →
          fetch_weekly_commit_activity resp retries = ([], k))
    ∧ (∀ retries : Nat,
        fetch_weekly_commit_activity (fun _ => .computing) retries = ([], retries))
    ∧ fetch_weekly_commit_activity (fun _ => .computing) 2 = ([], 2) := by
  refine ⟨?_, ?_, ?_, ?_⟩
  · intro resp retries k body hk hcomp hsucc
    simpa using fetchWeeklyAux_success resp k retries 0 0 body hk
      (fun i hi => by simpa using hcomp i hi) (by simpa using hsucc)
  · intro resp retries k code hk hcomp hother
    simpa using fetchWeeklyAux_other resp k retries 0 0 code hk
      (fun i hi => by simpa using hcomp i hi) (by simpa using hother)
  · intro retries
    simpa using fetchWeeklyAux_exhaust retries 0 0
  · simpa using fetchWeeklyAux_exhaust 2 0 0

/-- Claim C6, witness: one 202 then a success carrying the epoch-start week;
the poller returns the normalized bucket after exactly one delay sleep, and
the exhaustion instance `retries = 2` returns `([], 2)`. -/
theorem claim6_weekly_poller_witness :
    fetch_weekly_commit_activity
        (fun i => if i < 1 then .computing else .success (some [{ week := 0, total := 5 }])) 3
      = ([{ week := "1970-01-01", total := 5 }], 1)
    ∧ fetch_weekly_commit_activity (fun _ => .computing) 2 = ([], 2) := by
  constructor
  · have h := claim6_weekly_poller_theorem.1
      (fun i => if i < 1 then .computing else .success (some [{ week := 0, total := 5 }]))
      3 1 (some [{ week := 0, total := 5 }]) (by norm_num)
      (fun i hi => by interval_cases i; rfl) (by rfl)
    rw [h]
    decide
  · exact claim6_weekly_poller_theorem.2.2.2

/-! ### Content-probe fetchers (`contributing`, `code_of_conduct`, `pr_template`) -/

/-- A `fetch_rest` result for a contents endpoint: `failed` is `None`
(non-200), `cdict` a dict body whose `download_url` field is read, `clist` a
list body (directory listing). -/
inductive CResp where
  | failed
  | cdict (download_url : PyVal)
  | clist (names : List String)
deriving DecidableEq, Repr

/-- `r and isinstance(r, dict) and r.get("download_url")`: the candidate
resolves iff the body is a dict with a truthy `download_url`, whose string is
returned. -/
def resolveUrl (r : CResp) : Option String :=
  match r with
  | .cdict url => if pyTruthy url.get then url.get else none
  | _ => none

/-- `isinstance(r, list) and len(r) > 0`, the directory-probe condition. -/
def isNonEmptyList (r : CResp) : Bool :=
  match r with
  | .clist (_ :: _) => true
  | _ => false

/-- Walk the candidate paths in order, returning the first path that resolves
together with its download URL. -/
def probeCandidates (oracle : String → CResp) : List String → Option (String × String)
  | [] => none
  | p :: rest =>
    match resolveUrl (oracle p) with
    | some u => some (p, u)
    | none => probeCandidates oracle rest

/-- `Python s[:n]`. -/
def strTake (s : String) (n : Nat) : String :=
  ⟨s.data.take n⟩

def contributingCandidates : List String :=
  ["CONTRIBUTING.md", ".github/CONTRIBUTING.md", "docs/CONTRIBUTING.md", "contributing.md"]

def cocCandidates : List String :=
  ["CODE_OF_CONDUCT.md", ".github/CODE_OF_CONDUCT.md", "docs/CODE_OF_CONDUCT.md",
   "code-of-conduct.md", ".github/code-of-conduct.md"]

def prTemplateCandidates : List String :=
  [".github/PULL_REQUEST_TEMPLATE.md", "PULL_REQUEST_TEMPLATE.md",
   ".github/pull_request_template.md", "pull_request_template.md",
   ".github/PULL_REQUEST_TEMPLATE"]

/-- Result shape of `fetch_contributing`. -/
structure ProbeOut where
  found : Bool
  path : Option String
  download_url : Option String
deriving DecidableEq, Repr

/-- `fetch_contributing(owner, repo)`: probe the candidate paths in order. -/
def fetch_contributing (oracle : String → CResp) : ProbeOut :=
  match probeCandidates oracle contributingCandidates with
  | some pu => { found := true, path := some pu.1, download_url := some pu.2 }
  | none => { found := false, path := none, download_url := none }

/-- Result shape of `fetch_code_of_conduct`. -/
structure CocOut where
  found : Bool
  path : Option String
  download_url : Option String
  preview : Option String
deriving DecidableEq, Repr

/-- `fetch_code_of_conduct(owner, repo)`: probe candidates in order; on the
first resolving candidate, fetch its raw content (`contentGet`) and attach a
500-character preview when that secondary request returns 200. -/
def fetch_code_of_conduct (oracle : String → CResp) (contentGet : String → Option String) :
    CocOut :=
  match probeCandidates oracle cocCandidates with
  | some pu =>
    match contentGet pu.2 with
    | some text =>
      { found := true, path := some pu.1, download_url := some pu.2,
        preview := some (strTake text 500) }
    | none =>
      { found := true, path := some pu.1, download_url := some pu.2, preview := none }
  | none => { found := false, path := none, download_url := none, preview := none }

/-- Result shape of `fetch_pr_template`. -/
structure PrTplOut where
  has_pr_template : Bool
  path : Option String
  download_url : Option String
deriving DecidableEq, Repr

/-- `fetch_pr_template(owner, repo)`: probe the five file candidates in
order, then fall back to probing `.github/PULL_REQUEST_TEMPLATE` as a
directory (a non-empty list body). -/
def fetch_pr_template (oracle : String → CResp) : PrTplOut :=
  match probeCandidates oracle prTemplateCandidates with
  | some pu => { has_pr_template := true, path := some pu.1, download_url := some pu.2 }
  | none =>
    if isNonEmptyList (oracle ".github/PULL_REQUEST_TEMPLATE") then
      { has_pr_template := true, path := some ".github/PULL_REQUEST_TEMPLATE/",
        download_url := none }
    else { has_pr_template := false, path := none, download_url := none }

theorem probeCandidates_none (oracle : String → CResp) (cands : List String)
    (h : ∀ p ∈ cands, resolveUrl (oracle p) = none) :
    probeCandidates oracle cands = none := by
  induction cands with
  | nil => rfl
  | cons p rest ih =>
    simp only [probeCandidates, h p (List.mem_cons_self p rest)]
    exact ih (fun q hq => h q (List.mem_cons_of_mem p hq))

theorem probeCandidates_first (oracle : String → CResp) (pre : List String)
    (p : String) (post : List String) (u : String)
    (hpre : ∀ q ∈ pre, resolveUrl (oracle q) = none)
    (hp : resolveUrl (oracle p) = some u) :
    probeCandidates oracle (pre ++ p :: post) = some (p, u) := by
  induction pre with
  | nil => simp [probeCandidates, hp]
  | cons q rest ih =>
    simp only [List.cons_append, probeCandidates, hpre q (List.mem_cons_self q rest)]
    exact ih (fun q' hq' => hpre q' (List.mem_cons_of_mem q hq'))

/-- Claim C9.  Each content-probe fetcher walks its fixed candidate list in
order: the first resolving candidate (dict body with truthy `download_url`)
determines the result, and when no candidate resolves the fetcher returns its
deterministic not-found shape (`found`/`has_*` false, `null` fields) — the
embedding is a total function, so no input raises.  `fetch_pr_template`
additionally falls back to a directory probe of
`.github/PULL_REQUEST_TEMPLATE` before reporting not-found. -/
theorem claim9_content_probe_theorem :
    (∀ oracle : String → CResp,
        (∀ p ∈ contributingCandidates, resolveUrl (oracle p) = none) →
          fetch_contributing oracle
            = { found := false, path := none, download_url := none })
    ∧ (∀ (oracle : String → CResp) (pre : List String) (p : String)
          (post : List String) (u : String),
        contributingCandidates = pre ++ p :: post →
          (∀ q ∈ pre, resolveUrl (oracle q) = none) → resolveUrl (oracle p) = some u →
            fetch_contributing oracle
              = { found := true, path := some p, download_url := some u })
    ∧ (∀ (oracle : String → CResp) (contentGet : String → Option String),
        (∀ p ∈ cocCandidates, resolveUrl (oracle p) = none) →
          fetch_code_of_conduct oracle contentGet
            = { found := false, path := none, download_url := none, preview := none })
    ∧ (∀ (oracle : String → CResp) (contentGet : String → Option String)
          (pre : List String) (p : String) (post : List String) (u : String),
        cocCandidates = pre ++ p :: post →
          (∀ q ∈ pre, resolveUrl (oracle q) = none) → resolveUrl (oracle p) = some u →
            fetch_code_of_conduct oracle contentGet
              = { found := true, path := some p, download_url := some u,
                  preview := (contentGet u).map (fun t => strTake t 500) })
    ∧ (∀ oracle : String → CResp,
        (∀ p ∈ prTemplateCandidates, resolveUrl (oracle p) = none) →
          isNonEmptyList (oracle ".github/PULL_REQUEST_TEMPLATE") = false →
            fetch_pr_template oracle
              = { has_pr_template := false, path := none, download_url := none })
    ∧ (∀ (oracle : String → CResp) (pre : List String) (p : String)
          (post : List String) (u : String),
        prTemplateCandidates = pre ++ p :: post →
          (∀ q ∈ pre, resolveUrl (oracle q) = none) → resolveUrl (oracle p) = some u →
            fetch_pr_template oracle
              = { has_pr_template := true, path := some p, download_url := some u })
    ∧ (∀ oracle : String → CResp,
        (∀ p ∈ prTemplateCandidates, resolveUrl (oracle p) = none) →
          isNonEmptyList (oracle ".github/PULL_REQUEST_TEMPLATE") = true →
            fetch_pr_template oracle
              = { has_pr_template := true, path := some ".github/PULL_REQUEST_TEMPLATE/",
                  download_url := none }) := by
  refine ⟨?_, ?_, ?_, ?_, ?_, ?_, ?_⟩
  · intro oracle h
    simp [fetch_contributing, probeCandidates_none oracle _ h]
  · intro oracle pre p post u hsplit hpre hp
    simp [fetch_contributing, hsplit, probeCandidates_first oracle pre p post u hpre hp]
  · intro oracle contentGet h
    simp [fetch_code_of_conduct, probeCandidates_none oracle _ h]
  · intro oracle contentGet pre p post u hsplit hpre hp
    simp only [fetch_code_of_conduct, hsplit,
      probeCandidates_first oracle pre p post u hpre hp]
    cases contentGet u <;> rfl
  · intro oracle h hdir
    simp [fetch_pr_template, probeCandidates_none oracle _ h, hdir]
  · intro oracle pre p post u hsplit hpre hp
    simp [fetch_pr_template, hsplit, probeCandidates_first oracle pre p post u hpre hp]
  · intro oracle h hdir
    simp [fetch_pr_template, probeCandidates_none oracle _ h, hdir]

/-- An oracle resolving only `docs/CONTRIBUTING.md`. -/
def exProbeOracle (p : String) : CResp :=
  if p = "docs/CONTRIBUTING.md" then .cdict (.str "https://x/contributing.md") else .failed

/-- Claim C9, witness: the third contributing candidate resolves and the
earlier candidates do not; an all-failing oracle yields every fetcher's
not-found shape. -/
theorem claim9_content_probe_witness :
    fetch_contributing exProbeOracle
      = { found := true, path := some "docs/CONTRIBUTING.md",
          download_url := some "https://x/contributing.md" }
    ∧ fetch_contributing (fun _ => .failed)
      = { found := false, path := none, download_url := none }
    ∧ fetch_code_of_conduct (fun _ => .failed) (fun _ => none)
      = { found := false, path := none, download_url := none, preview := none }
    ∧ fetch_pr_template (fun _ => .failed)
      = { has_pr_template := false, path := none, download_url := none } := by
  refine ⟨?_, ?_, ?_, ?_⟩
  · exact claim9_content_probe_theorem.2.1 exProbeOracle
      ["CONTRIBUTING.md", ".github/CONTRIBUTING.md"] "docs/CONTRIBUTING.md"
      ["contributing.md"] "https://x/contributing.md" (by decide)
      (by intro q hq; fin_cases hq <;> rfl) (by rfl)
  · exact claim9_content_probe_theorem.1 (fun _ => .failed) (by intro p hp; rfl)
  · exact claim9_content_probe_theorem.2.2.1 (fun _ => .failed) (fun _ => none)
      (by intro p hp; rfl)
  · exact claim9_content_probe_theorem.2.2.2.2.1 (fun _ => .failed)
      (by intro p hp; rfl) (by rfl)

/-! ### `process_csv`, the batch driver

The driver is parameterized by each row's outcome: the row fails to parse
(`parse_owner_repo` returns no pair); `process_repo` runs to completion;
`process_repo` hits its `general_info`-failure path, prints `[WARN] Failed
repo` and **returns normally** (the `RepoOutcome.earlyFail` case of the
orchestrator model — the driver cannot distinguish this from completion and
still increments `ok`); `process_repo` raises an ordinary exception (caught,
logged as `[ERR]`, loop continues); or it raises `KeyboardInterrupt`
(re-raised, aborting the batch). -/

inductive RowOutcome where
  | unparsable
  | completes
  | warnFails
  | raises
  | interrupts
deriving DecidableEq, Repr

/-- The driver's observable result: the summary counters `ok` / `skipped` /
`total_rows` and, as the log, the 1-based row indices whose `process_repo`
call returned (and were therefore counted in `ok`), the indices logged
`[ERR]`, and the indices logged `[WARN] Failed repo`. -/
structure BatchResult where
  ok : Nat
  skipped : Nat
  totalRows : Nat
  completedIdx : List Nat
  errIdx : List Nat
  warnIdx : List Nat
deriving DecidableEq, Repr

/-- The row loop of `process_csv`.  Note the `warnFails` case: the
`[WARN]`-return of `process_repo` is an ordinary return, so the row is
counted in `ok` exactly like a completing row. -/
def processCsvAux : List RowOutcome → Nat → BatchResult → Except Unit BatchResult
  | [], _, acc => .ok acc
  | r :: rest, i, acc =>
    match r with
    | .unparsable => processCsvAux rest (i + 1) { acc with skipped := acc.skipped + 1 }
    | .completes =>
      processCsvAux rest (i + 1)
        { acc with ok := acc.ok + 1, completedIdx := acc.completedIdx ++ [i] }
    | .warnFails =>
      processCsvAux rest (i + 1)
        { acc with ok := acc.ok + 1, completedIdx := acc.completedIdx ++ [i],
                   warnIdx := acc.warnIdx ++ [i] }
    | .raises => processCsvAux rest (i + 1) { acc with errIdx := acc.errIdx ++ [i] }
    | .interrupts => .error ()

/-- `process_csv(csv_path)`: count the rows, loop from row 1, and report the
summary (an uncaught `KeyboardInterrupt` is the `.error` case). -/
def process_csv (rows : List RowOutcome) : Except Unit BatchResult :=
  processCsvAux rows 1
    { ok := 0, skipped := 0, totalRows := rows.length, completedIdx := [],
      errIdx := [], warnIdx := [] }

theorem processCsvAux_eq (rows : List RowOutcome) :
    ∀ (i : Nat) (acc : BatchResult), RowOutcome.interrupts ∉ rows →
      ∃ r, processCsvAux rows i acc = .ok r
        ∧ r.ok = acc.ok + (rows.filter (fun x => x = .completes)).length
              + (rows.filter (fun x => x = .warnFails)).length
        ∧ r.skipped = acc.skipped + (rows.filter (fun x => x = .unparsable)).length
        ∧ r.totalRows = acc.totalRows
        ∧ r.errIdx.length = acc.errIdx.length + (rows.filter (fun x => x = .raises)).length
        ∧ r.warnIdx.length
            = acc.warnIdx.length + (rows.filter (fun x => x = .warnFails)).length
        ∧ r.completedIdx.length
            = acc.completedIdx.length + (rows.filter (fun x => x = .completes)).length
              + (rows.filter (fun x => x = .warnFails)).length := by
  induction rows with
  | nil => intro i acc _; exact ⟨acc, rfl, by simp, by simp, rfl, by simp, by simp, by simp⟩
  | cons row rest ih =>
    intro i acc hni
    have hni' : RowOutcome.interrupts ∉ rest := fun h => hni (List.mem_cons_of_mem row h)
    cases row with
    | unparsable =>
      obtain ⟨r, hr, h1, h2, h3, h4, h5, h6⟩ := ih (i + 1) _ hni'
      exact ⟨r, hr, by simpa using h1, by simp at h2 ⊢; omega, h3,
        by simpa using h4, by simpa using h5, by simpa using h6⟩
    | completes =>
      obtain ⟨r, hr, h1, h2, h3, h4, h5, h6⟩ := ih (i + 1) _ hni'
      exact ⟨r, hr, by simp at h1 ⊢; omega, by simpa using h2, h3,
        by simpa using h4, by simpa using h5, by simp at h6 ⊢; omega⟩
    | warnFails =>
      obtain ⟨r, hr, h1, h2, h3, h4, h5, h6⟩ := ih (i + 1) _ hni'
      exact ⟨r, hr, by simp at h1 ⊢; omega, by simpa using h2, h3,
        by simpa using h4, by simp at h5 ⊢; omega, by simp at h6 ⊢; omega⟩
    | raises =>
      obtain ⟨r, hr, h1, h2, h3, h4, h5, h6⟩ := ih (i + 1) _ hni'
      exact ⟨r, hr, by simpa using h1, by simpa using h2, h3,
        by simp at h4 ⊢; omega, by simpa using h5, by simpa using h6⟩
    | interrupts => exact absurd (List.mem_cons_self _ _) hni

/-- Claim C2, counterexample.  The claim's cited "fails outright" path is
`process_repo`'s `general_info`-failure return (`[WARN] Failed repo`), which
is an ordinary return: `process_csv` then executes `ok += 1`, so a 3-row
batch whose 2nd repository fails that way reports `processed = 3` — the
failed repository is counted as processed, and the printed summary has no
`failed` field at all. -/
theorem claim2_batch_driver_counterexample :
    process_csv [.completes, .warnFails, .completes]
      = .ok { ok := 3, skipped := 0, totalRows := 3, completedIdx := [1, 2, 3],
              errIdx := [], warnIdx := [2] }
    ∧ ({ ok := 3, skipped := 0, totalRows := 3, completedIdx := [1, 2, 3],
         errIdx := [], warnIdx := [2] } : BatchResult).ok ≠ 2 := by
  exact ⟨rfl, by decide⟩

/-- Claim C2, amended.  A row whose processing **raises** is caught, logged
`[ERR]`, and the loop continues: it is counted neither `processed` nor
`skipped` (the summary prints `processed`/`skipped`/`total_rows` and has no
`failed` field; the `[ERR]` count equals `total_rows - processed - skipped`),
and a 3-row batch whose 2nd row raises reports `processed = 2, skipped = 0,
total_rows = 3` with exactly one `[ERR]` row.  A repository whose
`general_info` lookup fails, however, returns normally after `[WARN]` and is
counted `processed`: the same batch with that failure mode reports
`processed = 3` with one `[WARN]` row. -/
theorem claim2_batch_driver_theorem :
    (∀ rows : List RowOutcome, RowOutcome.interrupts ∉ rows →
        ∃ r, process_csv rows = .ok r
          ∧ r.ok = (rows.filter (fun x => x = .completes)).length
                + (rows.filter (fun x => x = .warnFails)).length
          ∧ r.skipped = (rows.filter (fun x => x = .unparsable)).length
          ∧ r.totalRows = rows.length
          ∧ r.errIdx.length = (rows.filter (fun x => x = .raises)).length
          ∧ r.warnIdx.length = (rows.filter (fun x => x = .warnFails)).length
          ∧ r.completedIdx.length = r.ok)
    ∧ process_csv [.completes, .raises, .completes]
        = .ok { ok := 2, skipped := 0, totalRows := 3, completedIdx := [1, 3],
                errIdx := [2], warnIdx := [] }
    ∧ process_csv [.completes, .warnFails, .completes]
        = .ok { ok := 3, skipped := 0, totalRows := 3, completedIdx := [1, 2, 3],
                errIdx := [], warnIdx := [2] } := by
  refine ⟨?_, rfl, rfl⟩
  intro rows hni
  obtain ⟨r, hr, h1, h2, h3, h4, h5, h6⟩ := processCsvAux_eq rows 1 _ hni
  exact ⟨r, hr, by simpa using h1, by simpa using h2, by simpa using h3,
    by simpa using h4, by simpa using h5, by simp at h1 h6 ⊢; omega⟩

/-- Claim C2, witness: the general batch statement applied to the concrete
3-row batch whose 2nd row raises. -/
theorem claim2_batch_driver_witness :
    ∃ r, process_csv [.completes, .raises, .completes] = .ok r
      ∧ r.ok = ([RowOutcome.completes, .raises, .completes].filter
            (fun x => x = .completes)).length
          + (([RowOutcome.completes, .raises, .completes].filter
            (fun x => x = .warnFails)).length)
      ∧ r.skipped = ([RowOutcome.completes, .raises, .completes].filter
          (fun x => x = .unparsable)).length
      ∧ r.totalRows = ([RowOutcome.completes, .raises, .completes] : List RowOutcome).length
      ∧ r.errIdx.length = ([RowOutcome.completes, .raises, .completes].filter
          (fun x => x = .raises)).length
      ∧ r.warnIdx.length = ([RowOutcome.completes, .raises, .completes].filter
          (fun x => x = .warnFails)).length
      ∧ r.completedIdx.length = r.ok :=
  claim2_batch_driver_theorem.1 [.completes, .raises, .completes] (by decide)

/-! ### `get_missing` / `process_repo`, the per-repository orchestrator

Filesystem state is a function from catalog file names to a file status;
`exists_and_valid` is the negation of `isMissing`.  The fetchers are
abstracted by an environment giving each fetcher's would-be payload and the
number of network requests it would make; `process_repo`'s control flow —
scan, skip when complete, fetch exactly the missing resources in source
order, derive `first_commits_by_author` from the stored commits — is
translated directly. -/

/-- The fixed resource catalog (`REQUIRED_FILES`), one constructor per file. -/
inductive RFile where
  | general_info
  | commits
  | forks
  | stars
  | contributors
  | pull_requests
  | issues
  | license
  | readme
  | contributing
  | languages
  | weekly_commit_activity
  | code_of_conduct
  | issue_template
  | pr_template
  | labels
  | maintainers
  | owner_info
  | first_commits_by_author_file
deriving DecidableEq, Repr

/-- `REQUIRED_FILES`, in source order. -/
def REQUIRED_FILES : List RFile :=
  [.general_info, .commits, .forks, .stars, .contributors, .pull_requests, .issues,
   .license, .readme, .contributing, .languages, .weekly_commit_activity,
   .code_of_conduct, .issue_template, .pr_template, .labels, .maintainers,
   .owner_info, .first_commits_by_author_file]

/-- A stored snapshot payload.  The commits and derived payloads are modelled
precisely (the derivation reads the former and writes the latter); every
other resource's payload is opaque to the orchestrator. -/
inductive Payload where
  | pcommits (cs : List CommitRec)
  | pfirst (fs : List FirstCommitOut)
  | pgeneral (g : GeneralInfo)
  | praw (tag : Nat)
deriving DecidableEq, Repr

/-- A parsed snapshot envelope (`_meta.fetched_at` plus `data`). -/
structure SnapFile where
  fetched_at : String
  data : Payload
deriving DecidableEq, Repr

/-- Status of one catalog file on disk. -/
inductive FStat where
  | absent
  | emptyFile
  | invalid
  | valid (snap : SnapFile)
deriving DecidableEq, Repr

/-- `get_missing`'s per-file test: missing iff the file does not exist, has
size 0, or fails to parse. -/
def isMissing : FStat → Bool
  | .absent => true
  | .emptyFile => true
  | .invalid => true
  | .valid _ => false

/-- `get_missing(repo_dir)`. -/
def get_missing (st : RFile → FStat) : List RFile :=
  REQUIRED_FILES.filter (fun f => isMissing (st f))

/-- The fetcher environment: for each fetcher, the payload it would return
and the number of network requests it would issue (`general_info` may fail,
returning `None` after its requests). -/
structure FetchEnv where
  general_info : Option GeneralInfo × Nat
  readme : Payload × Nat
  contributing : Payload × Nat
  code_of_conduct : Payload × Nat
  issue_template : Payload × Nat
  pr_template : Payload × Nat
  labels : Payload × Nat
  commits : List CommitRec × Nat
  forks : Payload × Nat
  stars : Payload × Nat
  contributors : Payload × Nat
  pull_requests : Payload × Nat
  issues : Payload × Nat
  license : Payload × Nat
  languages : Payload × Nat
  weekly_commit_activity : Payload × Nat
  maintainers : Payload × Nat
  owner_info : Payload × Nat
  now : String

/-- How `process_repo` ends: skipped-or-finished normally, returned early on
a failed `general_info` lookup (`[WARN]`), or propagated an exception (only
possible when the derivation loads a broken `commits.json`). -/
inductive RepoOutcome where
  | completed
  | earlyFail
  | raised
deriving DecidableEq, Repr

/-- The observable effect of one `process_repo` run: final filesystem state,
total network requests issued, files written in order, and the outcome. -/
structure RepoRun where
  state : RFile → FStat
  calls : Nat
  written : List RFile
  outcome : RepoOutcome

/-- `save_snapshot_json`: replace the file wholesale with a fresh envelope. -/
def writeSnap (now : String) (st : RFile → FStat) (f : RFile) (p : Payload) :
    RFile → FStat :=
  fun g => if g = f then .valid { fetched_at := now, data := p } else st g

/-- One `if "<f>.json" in missing: fetch; save` block over the running
(state, calls, written) triple. -/
def doFetchStep (missing : List RFile) (now : String) (f : RFile) (pc : Payload × Nat)
    (s : (RFile → FStat) × Nat × List RFile) : (RFile → FStat) × Nat × List RFile :=
  if f ∈ missing then (writeSnap now s.1 f pc.1, s.2.1 + pc.2, s.2.2 ++ [f])
  else s

/-- The seventeen unconditional fetch blocks of `process_repo`, in source
order (everything between the `general_info` block and the derivation). -/
def rawSteps (env : FetchEnv) : List (RFile × Payload × Nat) :=
  [(.readme, env.readme), (.contributing, env.contributing),
   (.code_of_conduct, env.code_of_conduct), (.issue_template, env.issue_template),
   (.pr_template, env.pr_template), (.labels, env.labels),
   (.commits, (Payload.pcommits env.commits.1, env.commits.2)),
   (.forks, env.forks), (.stars, env.stars), (.contributors, env.contributors),
   (.pull_requests, env.pull_requests), (.issues, env.issues),
   (.license, env.license), (.languages, env.languages),
   (.weekly_commit_activity, env.weekly_commit_activity),
   (.maintainers, env.maintainers), (.owner_info, env.owner_info)]

/-- The run of `process_repo` after the `general_info` block: the seventeen
remaining fetch blocks folded over the running triple, then the derivation
block — when `first_commits_by_author.json` is missing, load the stored
commits snapshot and write the derivation's output (a broken commits file at
that point raises out of the function). -/
def finishRun (env : FetchEnv) (missing : List RFile)
    (start : (RFile → FStat) × Nat × List RFile) : RepoRun :=
  let s2 := (rawSteps env).foldl
    (fun s stp => doFetchStep missing env.now stp.1 stp.2 s) start
  if RFile.first_commits_by_author_file ∈ missing then
    match s2.1 RFile.commits with
    | .valid snap =>
      match snap.data with
      | .pcommits cs =>
        { state := writeSnap env.now s2.1 .first_commits_by_author_file
            (.pfirst (first_commits_by_author cs))
          calls := s2.2.1
          written := s2.2.2 ++ [.first_commits_by_author_file]
          outcome := .completed }
      | _ => { state := s2.1, calls := s2.2.1, written := s2.2.2, outcome := .raised }
    | _ => { state := s2.1, calls := s2.2.1, written := s2.2.2, outcome := .raised }
  else { state := s2.1, calls := s2.2.1, written := s2.2.2, outcome := .completed }

/-- `process_repo(owner, repo)`.  Scan; return immediately when nothing is
missing; fetch `general_info` first, returning early when its lookup fails;
then run the remaining blocks for exactly the missing resources. -/
def process_repo (env : FetchEnv) (st0 : RFile → FStat) : RepoRun :=
  let missing := get_missing st0
  if missing = [] then { state := st0, calls := 0, written := [], outcome := .completed }
  else
    if RFile.general_info ∈ missing then
      match env.general_info.1 with
      | none =>
        { state := st0, calls := env.general_info.2, written := [], outcome := .earlyFail }
      | some g =>
        finishRun env missing
          (writeSnap env.now st0 .general_info (.pgeneral g),
           env.general_info.2, [RFile.general_info])
    else finishRun env missing (st0, 0, [])

theorem foldl_step_state (missing : List RFile) (now : String)
    (steps : List (RFile × Payload × Nat)) :
    ∀ (s : (RFile → FStat) × Nat × List RFile) (f : RFile), f ∉ missing →
      ((steps.foldl (fun s stp => doFetchStep missing now stp.1 stp.2 s) s).1) f
        = s.1 f := by
  induction steps with
  | nil => intro s f _; rfl
  | cons stp rest ih =>
    intro s f hf
    simp only [List.foldl_cons]
    rw [ih _ f hf]
    show (doFetchStep missing now stp.1 stp.2 s).1 f = s.1 f
    rw [doFetchStep]
    split
    case isTrue hmem =>
      simp only [writeSnap]
      rw [if_neg (fun h : f = stp.1 => hf (h ▸ hmem))]
    case isFalse _ => rfl

theorem foldl_step_written (missing : List RFile) (now : String)
    (steps : List (RFile × Payload × Nat)) :
    ∀ s : (RFile → FStat) × Nat × List RFile,
      ((steps.foldl (fun s stp => doFetchStep missing now stp.1 stp.2 s) s).2.2)
        = s.2.2 ++ (steps.map Prod.fst).filter (fun f => f ∈ missing) := by
  induction steps with
  | nil => intro s; simp
  | cons stp rest ih =>
    intro s
    simp only [List.foldl_cons, List.map_cons, List.filter_cons]
    rw [ih]
    rw [doFetchStep]
    split
    case isTrue hmem => simp [hmem]
    case isFalse hmem => simp [hmem]

theorem finishRun_state (env : FetchEnv) (missing : List RFile)
    (start : (RFile → FStat) × Nat × List RFile) (f : RFile) (hf : f ∉ missing) :
    (finishRun env missing start).state f = start.1 f := by
  rw [finishRun]
  have hfold := foldl_step_state missing env.now (rawSteps env) start f hf
  split
  case isTrue hderiv =>
    split
    case h_1 snap heq =>
      split
      case h_1 cs heq2 =>
        simp only [writeSnap]
        rw [if_neg (fun h : f = RFile.first_commits_by_author_file => hf (h ▸ hderiv))]
        exact hfold
      case h_2 => exact hfold
    case h_2 => exact hfold
  case isFalse _ => exact hfold

theorem finishRun_written (env : FetchEnv) (missing : List RFile)
    (start : (RFile → FStat) × Nat × List RFile) :
    ∀ f ∈ (finishRun env missing start).written, f ∈ start.2.2 ∨ f ∈ missing := by
  rw [finishRun]
  have hfold := foldl_step_written missing env.now (rawSteps env) start
  have hbase : ∀ f ∈ ((rawSteps env).foldl
      (fun s stp => doFetchStep missing env.now stp.1 stp.2 s) start).2.2,
      f ∈ start.2.2 ∨ f ∈ missing := by
    intro f hf
    rw [hfold] at hf
    rcases List.mem_append.mp hf with hf | hf
    · exact Or.inl hf
    · exact Or.inr (by simpa using List.of_mem_filter hf)
  split
  case isTrue hderiv =>
    split
    case h_1 snap heq =>
      split
      case h_1 cs heq2 =>
        intro f hf
        rcases List.mem_append.mp hf with hf | hf
        · exact hbase f hf
        · rw [List.mem_singleton] at hf
          exact Or.inr (hf ▸ hderiv)
      case h_2 => exact hbase
    case h_2 => exact hbase
  case isFalse _ => exact hbase

/-- The orchestrator never touches a file outside the missing set, and only
writes files inside it. -/
theorem process_repo_frame (env : FetchEnv) (st : RFile → FStat) :
    (∀ f, f ∉ get_missing st → (process_repo env st).state f = st f)
    ∧ (∀ f ∈ (process_repo env st).written, f ∈ get_missing st) := by
  rw [process_repo]
  by_cases hm : get_missing st = []
  · rw [if_pos hm]
    exact ⟨fun f _ => rfl, by simp⟩
  · rw [if_neg hm]
    by_cases hgi : RFile.general_info ∈ get_missing st
    · rw [if_pos hgi]
      cases hg : env.general_info.1 with
      | none => exact ⟨fun f _ => rfl, by simp⟩
      | some g =>
        constructor
        · intro f hf
          rw [finishRun_state env _ _ f hf]
          simp only [writeSnap]
          rw [if_neg (fun h : f = RFile.general_info => hf (h ▸ hgi))]
        · intro f hf
          rcases finishRun_written env _ _ f hf with hf | hf
          · rw [List.mem_singleton] at hf
            exact hf ▸ hgi
          · exact hf
    · rw [if_neg hgi]
      constructor
      · intro f hf
        exact finishRun_state env _ _ f hf
      · intro f hf
        rcases finishRun_written env _ _ f hf with hf | hf
        · cases hf
        · exact hf

/-- Claim C3.  When every catalog file exists, is non-empty and parses,
`process_repo` returns at the scan: it issues no network call, writes no
snapshot file, and leaves the filesystem state identical. -/
theorem claim3_idempotent_theorem (env : FetchEnv) (st : RFile → FStat)
    (h : ∀ f ∈ REQUIRED_FILES, isMissing (st f) = false) :
    process_repo env st
      = { state := st, calls := 0, written := [], outcome := .completed } := by
  have hm : get_missing st = [] := by
    rw [get_missing, List.filter_eq_nil_iff]
    intro f hf
    simp [h f hf]
  simp [process_repo, hm]

/-- A store in which every catalog file is a valid snapshot. -/
def exValidStore : RFile → FStat :=
  fun _ => .valid { fetched_at := "2024-01-01T00:00:00Z", data := .praw 0 }

/-- A concrete `general_info` payload. -/
def exGeneralInfo : GeneralInfo :=
  { full_name := none, html_url := none, description := none, archived := none,
    fork := none, default_branch := none, license := none, size := none,
    language := none, topics := none, stargazers_count := none, forks_count := none,
    open_issues_count := none, subscribers_count := none, watchers_count := none,
    commits_count := 0, created_at := none, updated_at := none, pushed_at := none }

/-- A concrete fetcher environment. -/
def exEnv : FetchEnv :=
  { general_info := (some exGeneralInfo, 2)
    readme := (.praw 1, 1)
    contributing := (.praw 2, 1)
    code_of_conduct := (.praw 3, 1)
    issue_template := (.praw 4, 1)
    pr_template := (.praw 5, 1)
    labels := (.praw 6, 1)
    commits := ([], 1)
    forks := (.praw 7, 1)
    stars := (.praw 8, 1)
    contributors := (.praw 9, 1)
    pull_requests := (.praw 10, 1)
    issues := (.praw 11, 1)
    license := (.praw 12, 1)
    languages := (.praw 13, 1)
    weekly_commit_activity := (.praw 14, 1)
    maintainers := (.praw 15, 1)
    owner_info := (.praw 16, 1)
    now := "2024-06-01T00:00:00Z" }

/-- Claim C3, witness: a fully-valid store is returned untouched with zero
requests whatever the fetcher environment would have produced. -/
theorem claim3_idempotent_witness :
    process_repo exEnv exValidStore
      = { state := exValidStore, calls := 0, written := [], outcome := .completed } :=
  claim3_idempotent_theorem exEnv exValidStore (by decide)

/-- Claim C4.  When exactly one catalog resource is missing (absent, empty,
or unparseable), re-running the orchestrator leaves every sibling file —
its whole snapshot, `fetched_at` included — untouched, writes only that
resource, and (when the resource is one of the seventeen unconditional fetch
blocks) writes it exactly once. -/
theorem claim4_frame_theorem (env : FetchEnv) (st : RFile → FStat) (r : RFile)
    (h : get_missing st = [r]) :
    (∀ f, f ≠ r → (process_repo env st).state f = st f)
    ∧ (∀ f ∈ (process_repo env st).written, f = r)
    ∧ (r ≠ RFile.general_info → r ≠ RFile.first_commits_by_author_file →
        (process_repo env st).written = [r]) := by
  have hfr := process_repo_frame env st
  refine ⟨?_, ?_, ?_⟩
  · intro f hf
    apply hfr.1
    rw [h, List.mem_singleton]
    exact hf
  · intro f hf
    have hmem := hfr.2 f hf
    rw [h, List.mem_singleton] at hmem
    exact hmem
  · intro hr1 hr2
    have hne : get_missing st ≠ [] := by rw [h]; simp
    have hgi : RFile.general_info ∉ get_missing st := by
      rw [h, List.mem_singleton]
      exact fun hh => hr1 hh.symm
    have hderiv : RFile.first_commits_by_author_file ∉ get_missing st := by
      rw [h, List.mem_singleton]
      exact fun hh => hr2 hh.symm
    simp only [process_repo]
    rw [if_neg hne, if_neg hgi]
    rw [finishRun]
    rw [if_neg hderiv]
    simp only []
    rw [foldl_step_written]
    rw [h]
    simp only [List.nil_append]
    have hsteps : (rawSteps env).map Prod.fst
        = [.readme, .contributing, .code_of_conduct, .issue_template, .pr_template,
           .labels, .commits, .forks, .stars, .contributors, .pull_requests, .issues,
           .license, .languages, .weekly_commit_activity, .maintainers, .owner_info] := rfl
    rw [hsteps]
    cases r with
    | general_info => exact absurd rfl hr1
    | first_commits_by_author_file => exact absurd rfl hr2
    | commits => decide
    | forks => decide
    | stars => decide
    | contributors => decide
    | pull_requests => decide
    | issues => decide
    | license => decide
    | readme => decide
    | contributing => decide
    | languages => decide
    | weekly_commit_activity => decide
    | code_of_conduct => decide
    | issue_template => decide
    | pr_template => decide
    | labels => decide
    | maintainers => decide
    | owner_info => decide

/-- A store in which exactly `labels.json` is missing. -/
def exOneMissingStore : RFile → FStat :=
  fun f =>
    if f = .labels then .absent
    else .valid { fetched_at := "2024-01-01T00:00:00Z", data := .praw 0 }

/-- Claim C4, witness: with only `labels.json` missing, the commits sibling
keeps its snapshot (hence its `fetched_at`) and exactly `labels.json` is
written. -/
theorem claim4_frame_witness :
    (process_repo exEnv exOneMissingStore).state RFile.commits
        = exOneMissingStore RFile.commits
    ∧ (∀ f ∈ (process_repo exEnv exOneMissingStore).written, f = RFile.labels)
    ∧ (process_repo exEnv exOneMissingStore).written = [RFile.labels] := by
  have h := claim4_frame_theorem exEnv exOneMissingStore RFile.labels (by decide)
  exact ⟨h.1 RFile.commits (by decide), h.2.1, h.2.2 (by decide) (by decide)⟩

end RepoSnap
